import Mathlib

set_option maxRecDepth 16384

/-
Shallow embedding of the mini-display region-update server (src/src/main.cpp).

The program accepts one client at a time, reads a region count byte N, then for
each region an 8-byte big-endian header (x, y, width, height) followed by
width*height 16-bit pixels sent row by row, two bytes per pixel.  Each row is
stored into a fixed global buffer `uint16_t updateBuffer[32 * 32]`, the two
bytes of every pixel are swapped in place, and the region is painted with
`tft.pushImage(x, y, width, height, updateBuffer)`.  On success the server
writes "OK" and drains the connection; any failure stops the client without a
response.

Timing model: the per-call polling loop of `readExactBytes` is modelled exactly
by `readLoop` over a trace of (millis value, available byte) poll steps, with
the deadline `millis() + 1000` computed in 32-bit `unsigned long` arithmetic,
so it wraps at 2^32 exactly as the source's line 44 does.  At
the session level the stream is abstracted to the list of bytes that arrive
within the relevant deadlines: a read of n bytes succeeds exactly when n bytes
remain (`readN`), which is how `readExactBytes` behaves on that list since a
failed call aborts the whole session.
-/

namespace MiniDisplay

/-- Maximum size of update regions: `const int MAX_CHUNK_SIZE = 32` (line 16). -/
def MAX_CHUNK_SIZE : Nat := 32

/-- A region header as decoded from the 8 metadata bytes (lines 96-99):
four big-endian 16-bit fields x, y, width, height. -/
structure Header where
  x : Nat
  y : Nat
  w : Nat
  h : Nat
  deriving DecidableEq, Repr

/-- Decode one big-endian 16-bit field: `(metaData[i] << 8) | metaData[i+1]`. -/
def parseU16 (hi lo : Nat) : Nat := (hi <<< 8) ||| lo

/-- Parse the 8 metadata bytes into a region header (lines 96-99). -/
def parseHeader (meta : List Nat) : Header :=
  { x := parseU16 (meta.getD 0 0) (meta.getD 1 0)
    y := parseU16 (meta.getD 2 0) (meta.getD 3 0)
    w := parseU16 (meta.getD 4 0) (meta.getD 5 0)
    h := parseU16 (meta.getD 6 0) (meta.getD 7 0) }

/-- The dimension check of lines 102-103:
`x + width > 240 || y + height > 240 || width > MAX_CHUNK_SIZE || height > MAX_CHUNK_SIZE`.
The C++ sums are computed in `int` after integral promotion of the `uint16_t`
operands (each at most 65535, so the sum is at most 131070, well inside `int`),
hence exact; the model therefore uses exact `Nat` sums. -/
def dimsInvalid (hd : Header) : Bool :=
  decide (hd.x + hd.w > 240) || decide (hd.y + hd.h > 240) ||
    decide (hd.w > MAX_CHUNK_SIZE) || decide (hd.h > MAX_CHUNK_SIZE)

/-- Session-level view of `readExactBytes`: `input` lists the bytes of the
stream that arrive within the relevant deadlines, in order.  A call asking for
`n` bytes succeeds and consumes exactly those bytes when at least `n` timely
bytes remain, and times out otherwise.  (The polling loop itself, with its
explicit `millis()` deadline, is modelled separately by `readLoop`.) -/
def readN (n : Nat) (input : List Nat) : Option (List Nat × List Nat) :=
  if n ≤ input.length then some (input.take n, input.drop n) else none

/-- The byte-order fixup of lines 123-127: swap the two bytes of every 16-bit
pixel in a row buffer. -/
def swapPairs : List Nat → List Nat
  | b0 :: b1 :: rest => b1 :: b0 :: swapPairs rest
  | l => l

/-- Reinterpret a byte buffer as 16-bit values the way the little-endian
ESP8266 target does when the bytes written through `byteBuffer` are read back
through `uint16_t* rowBuffer`: the byte at the lower address is the low-order
byte, so a pair `[lo, hi]` denotes the value `lo + 256 * hi`. -/
def bytesToPixelsLE : List Nat → List Nat
  | lo :: hi :: rest => (lo + 256 * hi) :: bytesToPixelsLE rest
  | _ => []

/-- Store a list of pixel values into the scratch buffer starting at pixel
index `off`, one store per pixel, mirroring the stores into
`&updateBuffer[row * width]` (lines 113-114). -/
def fillRow : List Nat → Nat → List Nat → List Nat
  | buf, _, [] => buf
  | buf, off, p :: ps => fillRow (buf.set off p) (off + 1) ps

/-- The row loop of lines 112-128: with `k` rows still to read and `row` the
index of the next row, read `width * 2` bytes, swap each pixel's bytes, store
the row at pixel offset `row * width`, and continue; `none` models the abort
taken when a row read times out (line 116-120). -/
def fillRowsAux (w : Nat) : Nat → Nat → List Nat → List Nat → Option (List Nat × List Nat)
  | _, 0, input, buf => some (buf, input)
  | row, k + 1, input, buf =>
    match readN (w * 2) input with
    | none => none
    | some (rowBytes, rest) =>
      fillRowsAux w (row + 1) k rest (fillRow buf (row * w) (bytesToPixelsLE (swapPairs rowBytes)))

/-- Why processing one region aborted the connection.  `invalidDims` carries
the input as it stands right after the 8 header bytes, witnessing that a
rejected region consumes no payload. -/
inductive RegionError where
  | headerShort : RegionError
  | invalidDims : Header → List Nat → RegionError
  | rowShort : Header → RegionError
  deriving DecidableEq

/-- Processing of one update region (lines 88-128): read 8 metadata bytes,
parse and validate the header, then fill the scratch buffer row by row.
Returns the validated header, the updated buffer and the unread input. -/
def processRegion (input : List Nat) (buf : List Nat) :
    Except RegionError (Header × List Nat × List Nat) :=
  match readN 8 input with
  | none => .error .headerShort
  | some (meta, rest) =>
    let hd := parseHeader meta
    if dimsInvalid hd then .error (.invalidDims hd rest)
    else
      match fillRowsAux hd.w 0 hd.h rest buf with
      | none => .error (.rowShort hd)
      | some (buf2, rest2) => .ok (hd, buf2, rest2)

/-- One `tft.pushImage(x, y, width, height, updateBuffer)` call (line 131):
the geometry passed and the full scratch-buffer contents at the moment of the
call. -/
structure Paint where
  x : Nat
  y : Nat
  w : Nat
  h : Nat
  buf : List Nat
  deriving DecidableEq

/-- How a session ended.  `success` carries the unread remainder of the timely
input (what the drain loop of lines 140-142 then discards). -/
inductive Outcome where
  | clientTimeout : Outcome
  | invalidCount : Nat → Outcome
  | regionFail : Nat → RegionError → Outcome
  | success : List Nat → Outcome
  deriving DecidableEq

/-- The region loop of lines 87-133: process `k` more regions (region `i`
next), recording one paint call per successful region, in order, and aborting
at the first failing region.  Returns the outcome, the paint calls made and
the final scratch buffer. -/
def processRegions : Nat → Nat → List Nat → List Nat → Outcome × List Paint × List Nat
  | _, 0, input, buf => (.success input, [], buf)
  | i, k + 1, input, buf =>
    match processRegion input buf with
    | .error e => (.regionFail i e, [], buf)
    | .ok (hd, buf2, rest) =>
      let r := processRegions (i + 1) k rest buf2
      (r.1, ⟨hd.x, hd.y, hd.w, hd.h, buf2⟩ :: r.2.1, r.2.2)

/-- One full client session (the body of `loop()` after `server.accept()`,
lines 62-144): `input` is the list of client bytes that arrive within the
relevant deadlines and `buf` the scratch buffer (the global `updateBuffer`).
An empty `input` models the 5-second post-accept wait expiring with no data
(lines 65-74); otherwise the first byte is the region count (lines 77-82). -/
def runSession (input : List Nat) (buf : List Nat) : Outcome × List Paint × List Nat :=
  match input with
  | [] => (.clientTimeout, [], buf)
  | n :: rest =>
    if n = 0 ∨ n > 100 then (.invalidCount n, [], buf)
    else processRegions 0 n rest buf

/-- The bytes written back to the client: `client.write("OK")` (line 136,
bytes 79 75) runs only after every region succeeded; every failure path calls
`client.stop()` without writing anything. -/
def response : Outcome → List Nat
  | .success _ => [79, 75]
  | .clientTimeout => []
  | .invalidCount _ => []
  | .regionFail _ _ => []

/-- The scratch-buffer pixel indices written while filling a `w × h` region:
row `r` is stored at `&updateBuffer[r * w]` (line 113), pixel `j` of the row
at index `r * w + j`. -/
def regionWriteIndices (w h : Nat) : List Nat :=
  (List.range h).flatMap fun r => (List.range w).map fun j => r * w + j

/-- The polling loop of `readExactBytes` (lines 46-51): each element of
`steps` is one loop iteration, giving the value of `millis()` at the loop
condition and the byte obtained by `client.read()` when `client.available()`
was true (`none` when no byte was available at that poll).  The loop runs
while `received < length && millis() < timeout`. -/
def readLoop (deadline len : Nat) : List (Nat × Option Nat) → List Nat → Bool × List Nat
  | [], acc => (acc.length == len, acc)
  | (t, a) :: steps, acc =>
    if acc.length < len ∧ t < deadline then
      match a with
      | some b => readLoop deadline len steps (acc ++ [b])
      | none => readLoop deadline len steps acc
    else (acc.length == len, acc)

/-- Modulus of the 32-bit `unsigned long` used for `millis()` and the deadline
arithmetic of line 44. -/
def UINT32_MOD : Nat := 4294967296

/-- Models one call `readExactBytes(client, buffer, length)` (lines 42-54):
a fresh byte count of zero and a fresh deadline
`unsigned long timeout = millis() + 1000` on every call, where the sum wraps
at 2^32 because `unsigned long` is 32 bits on this target.  `now` is the raw
32-bit `millis()` reading at call time, and the step times are the raw 32-bit
`millis()` readings at each poll; near rollover the wrapped deadline is a
small number, so `millis() < timeout` is false at once and the call fails
immediately even though bytes arrive within 1000 ms of the call.  Returns the
`received == length` flag and the bytes written into the caller's buffer. -/
def readExactBytes (now : Nat) (steps : List (Nat × Option Nat)) (len : Nat) :
    Bool × List Nat :=
  readLoop ((now + 1000) % UINT32_MOD) len steps []

/-- The bytes available from a poll trace strictly before `deadline`, up to
(and not including) the first poll whose `millis()` is at or past the
deadline. -/
def timelyAvail (deadline : Nat) (steps : List (Nat × Option Nat)) : List Nat :=
  (steps.takeWhile fun s => decide (s.1 < deadline)).filterMap Prod.snd

/-- The scratch buffer at power-up: 1024 pixels (`uint16_t updateBuffer[32 * 32]`,
line 17, zero-initialised static storage). -/
def initBuf : List Nat := List.replicate 1024 0

/-- A well-formed single-region payload used to instantiate the theorems:
header (x=0, y=0, w=2, h=1) followed by the four pixel bytes 0x00 0xFF 0x12 0x34. -/
def wRegion : List Nat := [0, 0, 0, 0, 0, 2, 0, 1, 0x00, 0xFF, 0x12, 0x34]

/-- The 8 header bytes of `wRegion`. -/
def wMeta : List Nat := [0, 0, 0, 0, 0, 2, 0, 1]

/-- The payload bytes of `wRegion`. -/
def wRest : List Nat := [0x00, 0xFF, 0x12, 0x34]

/-- The session input of the spec's round-trip scenario: N=1 then `wRegion`. -/
def wInput : List Nat := 1 :: wRegion

/-- The scratch buffer after processing `wRegion` from `initBuf`. -/
def wBuf2 : List Nat :=
  match processRegion wRegion initBuf with
  | .ok (_, b, _) => b
  | .error _ => []

/-- A header with zero width (x=0, y=0, w=0, h=5) for the degenerate-region
theorems. -/
def wMeta0 : List Nat := [0, 0, 0, 0, 0, 0, 0, 5]

lemma getD_set_ne (l : List Nat) {i j : Nat} (v : Nat) (h : i ≠ j) :
    (l.set i v).getD j 0 = l.getD j 0 := by
  simp [List.getD_eq_getElem?_getD, List.getElem?_set_ne h]

lemma getD_set_self (l : List Nat) {i : Nat} (v : Nat) (h : i < l.length) :
    (l.set i v).getD i 0 = v := by
  simp [List.getD_eq_getElem?_getD, List.getElem?_set_self', h]

lemma getD_take (l : List Nat) {n i : Nat} (h : i < n) :
    (l.take n).getD i 0 = l.getD i 0 := by
  simp [List.getD_eq_getElem?_getD, List.getElem?_take_of_lt h]

lemma getD_drop (l : List Nat) (n i : Nat) :
    (l.drop n).getD i 0 = l.getD (n + i) 0 := by
  simp [List.getD_eq_getElem?_getD, List.getElem?_drop]

lemma fillRow_length (px : List Nat) : ∀ (buf : List Nat) (off : Nat),
    (fillRow buf off px).length = buf.length := by
  induction px with
  | nil => intro buf off; rfl
  | cons p ps ih =>
    intro buf off
    simp only [fillRow]
    rw [ih, List.length_set]

lemma fillRow_getD_lt (px : List Nat) : ∀ (buf : List Nat) (off i : Nat), i < off →
    (fillRow buf off px).getD i 0 = buf.getD i 0 := by
  induction px with
  | nil => intro buf off i _; rfl
  | cons p ps ih =>
    intro buf off i h
    simp only [fillRow]
    rw [ih (buf.set off p) (off + 1) i (by omega), getD_set_ne buf p (by omega)]

lemma fillRow_getD_ge (px : List Nat) : ∀ (buf : List Nat) (off i : Nat),
    off + px.length ≤ i →
    (fillRow buf off px).getD i 0 = buf.getD i 0 := by
  induction px with
  | nil => intro buf off i _; rfl
  | cons p ps ih =>
    intro buf off i h
    simp only [List.length_cons] at h
    simp only [fillRow]
    rw [ih (buf.set off p) (off + 1) i (by omega), getD_set_ne buf p (by omega)]

lemma fillRow_getD_mem (px : List Nat) : ∀ (buf : List Nat) (off j : Nat),
    j < px.length → off + px.length ≤ buf.length →
    (fillRow buf off px).getD (off + j) 0 = px.getD j 0 := by
  induction px with
  | nil => intro buf off j h _; simp at h
  | cons p ps ih =>
    intro buf off j hj hlen
    simp only [List.length_cons] at hj hlen
    simp only [fillRow]
    cases j with
    | zero =>
      simp only [Nat.add_zero]
      rw [fillRow_getD_lt ps (buf.set off p) (off + 1) off (by omega)]
      exact getD_set_self buf p (by omega)
    | succ j =>
      have hrec := ih (buf.set off p) (off + 1) j (by omega)
        (by rw [List.length_set]; omega)
      rw [show off + (j + 1) = (off + 1) + j by omega, hrec]
      rfl

lemma pix_length : ∀ (w : Nat) (l : List Nat), l.length = w * 2 →
    (bytesToPixelsLE (swapPairs l)).length = w := by
  intro w
  induction w with
  | zero =>
    intro l hl
    cases l with
    | nil => rfl
    | cons b0 t => simp at hl
  | succ w ih =>
    intro l hl
    cases l with
    | nil => exact absurd hl (by simp)
    | cons b0 t =>
      cases t with
      | nil => exact absurd hl (by simp; omega)
      | cons b1 tl =>
        simp only [swapPairs, bytesToPixelsLE, List.length_cons]
        rw [ih tl (by simp only [List.length_cons] at hl; omega)]

lemma pix_getD : ∀ (w : Nat) (l : List Nat) (j : Nat), l.length = w * 2 → j < w →
    (bytesToPixelsLE (swapPairs l)).getD j 0 =
      l.getD (2 * j + 1) 0 + 256 * l.getD (2 * j) 0 := by
  intro w
  induction w with
  | zero => intro l j _ hj; omega
  | succ w ih =>
    intro l j hl hj
    cases l with
    | nil => exact absurd hl (by simp)
    | cons b0 t =>
      cases t with
      | nil => exact absurd hl (by simp; omega)
      | cons b1 tl =>
        simp only [swapPairs, bytesToPixelsLE]
        cases j with
        | zero => rfl
        | succ j =>
          have h2 : tl.length = w * 2 := by
            simp only [List.length_cons] at hl; omega
          have hrec := ih tl j h2 (by omega)
          rw [show 2 * (j + 1) + 1 = (2 * j + 1) + 2 by omega,
            show 2 * (j + 1) = 2 * j + 2 by omega]
          simpa using hrec

lemma readN_some {n : Nat} {input out rest : List Nat}
    (h : readN n input = some (out, rest)) :
    n ≤ input.length ∧ out = input.take n ∧ rest = input.drop n := by
  by_cases hc : n ≤ input.length
  · simp only [readN, if_pos hc, Option.some.injEq, Prod.mk.injEq] at h
    exact ⟨hc, h.1.symm, h.2.symm⟩
  · simp [readN, hc] at h

lemma readN_of_le {n : Nat} {input : List Nat} (h : n ≤ input.length) :
    readN n input = some (input.take n, input.drop n) := by
  simp [readN, h]

lemma fillRowsAux_length (w : Nat) : ∀ (k row : Nat) (input buf buf2 rest : List Nat),
    fillRowsAux w row k input buf = some (buf2, rest) → buf2.length = buf.length := by
  intro k
  induction k with
  | zero =>
    intro row input buf buf2 rest h
    simp only [fillRowsAux, Option.some.injEq, Prod.mk.injEq] at h
    rw [← h.1]
  | succ k ih =>
    intro row input buf buf2 rest h
    cases hrn : readN (w * 2) input with
    | none => simp [fillRowsAux, hrn] at h
    | some pr =>
      obtain ⟨rowBytes, rest1⟩ := pr
      simp only [fillRowsAux, hrn] at h
      rw [ih (row + 1) rest1 _ buf2 rest h, fillRow_length]

lemma fillRowsAux_zero_w : ∀ (k row : Nat) (input buf : List Nat),
    fillRowsAux 0 row k input buf = some (buf, input) := by
  intro k
  induction k with
  | zero => intro row input buf; rfl
  | succ k ih =>
    intro row input buf
    have hrn : readN (0 * 2) input = some (input.take (0 * 2), input.drop (0 * 2)) :=
      readN_of_le (by simp)
    simp only [fillRowsAux, hrn]
    simpa [swapPairs, bytesToPixelsLE, fillRow] using ih (row + 1) input buf

lemma fillRowsAux_spec (w : Nat) : ∀ (k row : Nat) (input buf buf2 rest : List Nat),
    (row + k) * w ≤ buf.length →
    fillRowsAux w row k input buf = some (buf2, rest) →
    rest = input.drop (k * (w * 2)) ∧
    (∀ i, i < row * w → buf2.getD i 0 = buf.getD i 0) ∧
    (∀ i, (row + k) * w ≤ i → buf2.getD i 0 = buf.getD i 0) ∧
    (∀ r j, r < k → j < w →
      buf2.getD ((row + r) * w + j) 0 =
        input.getD (r * (w * 2) + (2 * j + 1)) 0 +
          256 * input.getD (r * (w * 2) + 2 * j) 0) := by
  intro k
  induction k with
  | zero =>
    intro row input buf buf2 rest _ h
    simp only [fillRowsAux, Option.some.injEq, Prod.mk.injEq] at h
    obtain ⟨hb, hr⟩ := h
    subst hb; subst hr
    exact ⟨by simp, fun i _ => rfl, fun i _ => rfl, fun r j hr _ => absurd hr (by omega)⟩
  | succ k ih =>
    intro row input buf buf2 rest hlen h
    cases hrn : readN (w * 2) input with
    | none => simp [fillRowsAux, hrn] at h
    | some pr =>
      obtain ⟨rowBytes, rest1⟩ := pr
      obtain ⟨hwle, hrb, hr1⟩ := readN_some hrn
      simp only [fillRowsAux, hrn] at h
      have hpxlen : (bytesToPixelsLE (swapPairs rowBytes)).length = w := by
        apply pix_length
        rw [hrb, List.length_take]; omega
      have hflen :
          (fillRow buf (row * w) (bytesToPixelsLE (swapPairs rowBytes))).length = buf.length :=
        fillRow_length _ buf (row * w)
      have hmul1 : (row + 1) * w = row * w + w := by ring
      have hmul2 : (row + 1 + k) * w = (row + (k + 1)) * w := by ring
      have hlen1 : (row + 1 + k) * w ≤
          (fillRow buf (row * w) (bytesToPixelsLE (swapPairs rowBytes))).length := by
        rw [hflen, hmul2]; exact hlen
      obtain ⟨hrest, hlow, hhigh, hcontent⟩ := ih (row + 1) rest1 _ buf2 rest hlen1 h
      have hmul3 : (row + 1) * w ≤ (row + 1 + k) * w :=
        Nat.mul_le_mul_right w (by omega)
      refine ⟨?_, ?_, ?_, ?_⟩
      · rw [hrest, hr1, List.drop_drop]
        have e : w * 2 + k * (w * 2) = (k + 1) * (w * 2) := by ring
        rw [e]
      · intro i hi
        have hi1 : i < (row + 1) * w := by rw [hmul1]; omega
        rw [hlow i hi1]
        exact fillRow_getD_lt _ buf (row * w) i hi
      · intro i hi
        rw [hhigh i (by rw [hmul2]; exact hi)]
        apply fillRow_getD_ge
        rw [hpxlen]
        omega
      · intro r j hr hj
        cases r with
        | zero =>
          have hi1 : (row + 0) * w + j < (row + 1) * w := by
            simp only [Nat.add_zero]
            omega
          rw [hlow _ hi1]
          simp only [Nat.add_zero]
          rw [fillRow_getD_mem _ buf (row * w) j (by rw [hpxlen]; exact hj)
            (by rw [hpxlen]; omega)]
          rw [pix_getD w rowBytes j (by rw [hrb, List.length_take]; omega) hj]
          rw [hrb, getD_take input (show 2 * j + 1 < w * 2 by omega),
            getD_take input (show 2 * j < w * 2 by omega)]
          simp
        | succ r1 =>
          have he : row + (r1 + 1) = row + 1 + r1 := by omega
          rw [he, hcontent r1 j (by omega) hj, hr1, getD_drop, getD_drop]
          have e1 : w * 2 + (r1 * (w * 2) + (2 * j + 1)) =
              (r1 + 1) * (w * 2) + (2 * j + 1) := by ring
          have e2 : w * 2 + (r1 * (w * 2) + 2 * j) = (r1 + 1) * (w * 2) + 2 * j := by ring
          rw [e1, e2]

lemma processRegion_ok {input buf : List Nat} {hd : Header} {buf2 rest : List Nat}
    (h : processRegion input buf = .ok (hd, buf2, rest)) :
    8 ≤ input.length ∧ hd = parseHeader (input.take 8) ∧ dimsInvalid hd = false ∧
      fillRowsAux hd.w 0 hd.h (input.drop 8) buf = some (buf2, rest) := by
  cases hrn : readN 8 input with
  | none => simp [processRegion, hrn] at h
  | some pr =>
    obtain ⟨meta, rest1⟩ := pr
    obtain ⟨hle, hm, hr1⟩ := readN_some hrn
    simp only [processRegion, hrn] at h
    by_cases hdi : dimsInvalid (parseHeader meta) = true
    · simp [hdi] at h
    · rw [Bool.not_eq_true] at hdi
      simp only [hdi, Bool.false_eq_true, if_false] at h
      cases hfa : fillRowsAux (parseHeader meta).w 0 (parseHeader meta).h rest1 buf with
      | none => simp [hfa] at h
      | some pr2 =>
        obtain ⟨b2, r2⟩ := pr2
        simp only [hfa, Except.ok.injEq, Prod.mk.injEq] at h
        obtain ⟨hh, hb, hr⟩ := h
        refine ⟨hle, ?_, ?_, ?_⟩
        · rw [← hh, hm]
        · rw [← hh]; exact hdi
        · rw [← hh, ← hb, ← hr, ← hr1]; exact hfa

lemma processRegion_buf_length {input buf : List Nat} {hd : Header} {buf2 rest : List Nat}
    (h : processRegion input buf = .ok (hd, buf2, rest)) : buf2.length = buf.length :=
  fillRowsAux_length hd.w hd.h 0 (input.drop 8) buf buf2 rest (processRegion_ok h).2.2.2

lemma processRegions_buf_length : ∀ (k i : Nat) (input buf : List Nat),
    ((processRegions i k input buf).2.2).length = buf.length := by
  intro k
  induction k with
  | zero => intro i input buf; rfl
  | succ k ih =>
    intro i input buf
    cases hpr : processRegion input buf with
    | error e => simp [processRegions, hpr]
    | ok tr =>
      obtain ⟨hd, buf2, rest⟩ := tr
      simp only [processRegions, hpr]
      rw [ih (i + 1) rest buf2, processRegion_buf_length hpr]

lemma processRegions_success_length : ∀ (k i : Nat) (input buf leftover : List Nat),
    (processRegions i k input buf).1 = .success leftover →
    (processRegions i k input buf).2.1.length = k := by
  intro k
  induction k with
  | zero => intro i input buf leftover _; rfl
  | succ k ih =>
    intro i input buf leftover h
    cases hpr : processRegion input buf with
    | error e => simp [processRegions, hpr] at h
    | ok tr =>
      obtain ⟨hd, buf2, rest⟩ := tr
      simp only [processRegions, hpr] at h ⊢
      rw [List.length_cons, ih (i + 1) rest buf2 leftover h]

lemma processRegions_outcome : ∀ (k i : Nat) (input buf : List Nat),
    (∃ leftover, (processRegions i k input buf).1 = .success leftover) ∨
      (∃ j e, (processRegions i k input buf).1 = .regionFail j e) := by
  intro k
  induction k with
  | zero => intro i input buf; exact .inl ⟨input, rfl⟩
  | succ k ih =>
    intro i input buf
    cases hpr : processRegion input buf with
    | error e => exact .inr ⟨i, e, by simp [processRegions, hpr]⟩
    | ok tr =>
      obtain ⟨hd, buf2, rest⟩ := tr
      have := ih (i + 1) rest buf2
      simpa only [processRegions, hpr] using this

lemma processRegions_paint_bounds : ∀ (k i : Nat) (input buf : List Nat) (p : Paint),
    p ∈ (processRegions i k input buf).2.1 →
    p.x + p.w ≤ 240 ∧ p.y + p.h ≤ 240 ∧ p.w ≤ 32 ∧ p.h ≤ 32 := by
  intro k
  induction k with
  | zero => intro i input buf p hp; simp [processRegions] at hp
  | succ k ih =>
    intro i input buf p hp
    cases hpr : processRegion input buf with
    | error e => simp [processRegions, hpr] at hp
    | ok tr =>
      obtain ⟨hd, buf2, rest⟩ := tr
      simp only [processRegions, hpr, List.mem_cons] at hp
      cases hp with
      | inl hp =>
        subst hp
        have hdi := (processRegion_ok hpr).2.2.1
        simp only [dimsInvalid, MAX_CHUNK_SIZE, Bool.or_eq_false_iff,
          decide_eq_false_iff_not, not_lt] at hdi
        exact ⟨hdi.1.1.1, hdi.1.1.2, hdi.1.2, hdi.2⟩
      | inr hp => exact ih (i + 1) rest buf2 p hp

lemma readLoop_bytes : ∀ (steps : List (Nat × Option Nat)) (acc : List Nat) (deadline len : Nat),
    acc.length ≤ len →
    (readLoop deadline len steps acc).2 =
      acc ++ (timelyAvail deadline steps).take (len - acc.length) := by
  intro steps
  induction steps with
  | nil =>
    intro acc deadline len _
    simp [readLoop, timelyAvail]
  | cons s steps ih =>
    obtain ⟨t, a⟩ := s
    intro acc deadline len hle
    by_cases hc : acc.length < len ∧ t < deadline
    · cases a with
      | some b =>
        have htl : timelyAvail deadline ((t, some b) :: steps) =
            b :: timelyAvail deadline steps := by
          simp [timelyAvail, List.takeWhile_cons, hc.2]
        have hlen2 : (acc ++ [b]).length ≤ len := by
          simp only [List.length_append, List.length_singleton]
          omega
        have e : len - acc.length = (len - (acc ++ [b]).length) + 1 := by
          simp only [List.length_append, List.length_singleton]
          omega
        simp only [readLoop, if_pos hc, htl]
        rw [ih (acc ++ [b]) deadline len hlen2, e, List.take_succ_cons,
          List.append_assoc, List.singleton_append]
      | none =>
        have htl : timelyAvail deadline ((t, none) :: steps) =
            timelyAvail deadline steps := by
          simp [timelyAvail, List.takeWhile_cons, hc.2]
        simp only [readLoop, if_pos hc, htl]
        exact ih acc deadline len hle
    · simp only [readLoop, if_neg hc]
      rcases Nat.lt_or_ge acc.length len with hlt | hge
      · have ht : ¬ t < deadline := fun h => hc ⟨hlt, h⟩
        simp [timelyAvail, List.takeWhile_cons, ht]
      · have h0 : len - acc.length = 0 := by omega
        simp [h0]

lemma readLoop_flag : ∀ (steps : List (Nat × Option Nat)) (acc : List Nat) (deadline len : Nat),
    (readLoop deadline len steps acc).1 =
      ((readLoop deadline len steps acc).2.length == len) := by
  intro steps
  induction steps with
  | nil => intro acc deadline len; rfl
  | cons s steps ih =>
    obtain ⟨t, a⟩ := s
    intro acc deadline len
    by_cases hc : acc.length < len ∧ t < deadline
    · cases a with
      | some b =>
        simp only [readLoop, if_pos hc]
        exact ih (acc ++ [b]) deadline len
      | none =>
        simp only [readLoop, if_pos hc]
        exact ih acc deadline len
    · simp only [readLoop, if_neg hc]

/-- C1: every `tft.pushImage` call made by a session uses a rectangle with
`x + width ≤ 240`, `y + height ≤ 240`, `width ≤ 32` and `height ≤ 32`, where
the sums are exact (non-wrapping) `Nat` sums of the decoded 16-bit header
fields; no input byte stream, including one with x or y near 65535, can
produce a paint call violating these bounds. -/
theorem c1_paint_bounds (input buf : List Nat) (p : Paint)
    (hp : p ∈ (runSession input buf).2.1) :
    p.x + p.w ≤ 240 ∧ p.y + p.h ≤ 240 ∧ p.w ≤ 32 ∧ p.h ≤ 32 := by
  cases input with
  | nil => simp [runSession] at hp
  | cons n rest =>
    by_cases hn : n = 0 ∨ n > 100
    · simp [runSession, hn] at hp
    · simp only [runSession, if_neg hn] at hp
      exact processRegions_paint_bounds n 0 rest buf p hp

/-- Witness for C1: the paint call of the concrete scenario session satisfies
the bounds. -/
theorem c1_witness :
    ((runSession wInput initBuf).2.1.headD ⟨0, 0, 0, 0, []⟩).x +
        ((runSession wInput initBuf).2.1.headD ⟨0, 0, 0, 0, []⟩).w ≤ 240 ∧
      ((runSession wInput initBuf).2.1.headD ⟨0, 0, 0, 0, []⟩).y +
        ((runSession wInput initBuf).2.1.headD ⟨0, 0, 0, 0, []⟩).h ≤ 240 ∧
      ((runSession wInput initBuf).2.1.headD ⟨0, 0, 0, 0, []⟩).w ≤ 32 ∧
      ((runSession wInput initBuf).2.1.headD ⟨0, 0, 0, 0, []⟩).h ≤ 32 :=
  c1_paint_bounds wInput initBuf _ (by decide)

/-- C2: filling a validated region writes only pixel indices `r * w + j` with
`r < h`, `j < w`, all strictly below 1024; the scratch buffer keeps its length
(never resized) on every session, and entries at or beyond `h * w` are left
untouched. -/
theorem c2_buffer_safety :
    (∀ input buf, ((runSession input buf).2.2).length = buf.length) ∧
    (∀ input buf hd buf2 rest, buf.length = 1024 →
      processRegion input buf = Except.ok (hd, buf2, rest) →
      (∀ i ∈ regionWriteIndices hd.w hd.h, i < 1024) ∧
      buf2.length = 1024 ∧
      (∀ i, hd.h * hd.w ≤ i → buf2.getD i 0 = buf.getD i 0)) := by
  constructor
  · intro input buf
    cases input with
    | nil => rfl
    | cons n rest =>
      by_cases hn : n = 0 ∨ n > 100
      · simp [runSession, hn]
      · simp only [runSession, if_neg hn]
        exact processRegions_buf_length n 0 rest buf
  · intro input buf hd buf2 rest hbuf hok
    obtain ⟨hle, hparse, hdi, hfa⟩ := processRegion_ok hok
    simp only [dimsInvalid, MAX_CHUNK_SIZE, Bool.or_eq_false_iff,
      decide_eq_false_iff_not, not_lt] at hdi
    obtain ⟨⟨⟨hx, hy⟩, hw⟩, hh⟩ := hdi
    have hwh : (0 + hd.h) * hd.w ≤ buf.length := by
      rw [hbuf, Nat.zero_add]
      calc hd.h * hd.w ≤ 32 * hd.w := Nat.mul_le_mul_right _ hh
        _ ≤ 32 * 32 := Nat.mul_le_mul_left _ hw
        _ ≤ 1024 := by norm_num
    obtain ⟨hrest, hlow, hhigh, hcontent⟩ :=
      fillRowsAux_spec hd.w hd.h 0 (input.drop 8) buf buf2 rest hwh hfa
    refine ⟨?_, ?_, ?_⟩
    · intro i hi
      simp only [regionWriteIndices, List.mem_flatMap, List.mem_map,
        List.mem_range] at hi
      obtain ⟨r, hr, j, hj, rfl⟩ := hi
      calc r * hd.w + j < r * hd.w + hd.w := by omega
        _ = (r + 1) * hd.w := by ring
        _ ≤ 32 * hd.w := Nat.mul_le_mul_right _ (by omega)
        _ ≤ 32 * 32 := Nat.mul_le_mul_left _ hw
        _ ≤ 1024 := by norm_num
    · rw [fillRowsAux_length hd.w hd.h 0 _ buf buf2 rest hfa, hbuf]
    · intro i hi
      exact hhigh i (by rw [Nat.zero_add]; exact hi)

/-- Witness for C2 at the concrete region `wRegion` processed from `initBuf`. -/
theorem c2_witness :
    (∀ i ∈ regionWriteIndices (2 : Nat) 1, i < 1024) ∧ wBuf2.length = 1024 ∧
      (∀ i, 1 * 2 ≤ i → wBuf2.getD i 0 = initBuf.getD i 0) :=
  c2_buffer_safety.2 wRegion initBuf ⟨0, 0, 2, 1⟩ wBuf2 [] (by decide) (by rfl)

/-- C3: a decoded header is rejected — connection aborted with the dimension
error, no payload byte consumed, no paint call for that region — exactly when
`x + width > 240` or `y + height > 240` or `width > 32` or `height > 32`; a
header passing the check proceeds to payload reading. -/
theorem c3_header_validation (input buf meta rest : List Nat)
    (hread : readN 8 input = some (meta, rest)) :
    ((processRegion input buf = .error (.invalidDims (parseHeader meta) rest)) ↔
      dimsInvalid (parseHeader meta) = true) ∧
    (dimsInvalid (parseHeader meta) = false →
      (∃ buf2 rest2, processRegion input buf = .ok (parseHeader meta, buf2, rest2)) ∨
        processRegion input buf = .error (.rowShort (parseHeader meta))) ∧
    (∀ i k e, processRegion input buf = .error e →
      (processRegions i (k + 1) input buf).2.1 = [] ∧
        (processRegions i (k + 1) input buf).1 = .regionFail i e) := by
  refine ⟨⟨?_, ?_⟩, ?_, ?_⟩
  · intro h
    by_cases hdi : dimsInvalid (parseHeader meta) = true
    · exact hdi
    · rw [Bool.not_eq_true] at hdi
      exfalso
      simp only [processRegion, hread, hdi, Bool.false_eq_true, if_false] at h
      cases hfa : fillRowsAux (parseHeader meta).w 0 (parseHeader meta).h rest buf with
      | none => simp [hfa] at h
      | some pr =>
        obtain ⟨b2, r2⟩ := pr
        simp [hfa] at h
  · intro hdi
    simp [processRegion, hread, hdi]
  · intro hdi
    simp only [processRegion, hread, hdi, Bool.false_eq_true, if_false]
    cases hfa : fillRowsAux (parseHeader meta).w 0 (parseHeader meta).h rest buf with
    | none => right; simp [hfa]
    | some pr =>
      obtain ⟨b2, r2⟩ := pr
      exact .inl ⟨b2, r2, by simp [hfa]⟩
  · intro i k e h
    constructor <;> simp [processRegions, h]

/-- Witness for C3 at the concrete region `wRegion`, whose header passes the
check. -/
theorem c3_witness :
    ((processRegion wRegion initBuf = .error (.invalidDims (parseHeader wMeta) wRest)) ↔
      dimsInvalid (parseHeader wMeta) = true) ∧
    (dimsInvalid (parseHeader wMeta) = false →
      (∃ buf2 rest2, processRegion wRegion initBuf = .ok (parseHeader wMeta, buf2, rest2)) ∨
        processRegion wRegion initBuf = .error (.rowShort (parseHeader wMeta))) ∧
    (∀ i k e, processRegion wRegion initBuf = .error e →
      (processRegions i (k + 1) wRegion initBuf).2.1 = [] ∧
        (processRegions i (k + 1) wRegion initBuf).1 = .regionFail i e) :=
  c3_header_validation wRegion initBuf wMeta wRest (by rfl)

/-- C4: the two acknowledgment bytes "OK" are written exactly when the session
succeeded with all N declared regions painted; every failing session produces
no response bytes at all. -/
theorem c4_ack_iff (input buf : List Nat) :
    (response (runSession input buf).1 = [79, 75] ↔
      ∃ n rest leftover, input = n :: rest ∧ 1 ≤ n ∧ n ≤ 100 ∧
        (runSession input buf).1 = .success leftover ∧
        (runSession input buf).2.1.length = n) ∧
    (response (runSession input buf).1 = [79, 75] ∨
      response (runSession input buf).1 = []) := by
  cases input with
  | nil =>
    constructor
    · constructor
      · intro h; simp [runSession, response] at h
      · rintro ⟨n, rest, leftover, h, -⟩; simp at h
    · right; rfl
  | cons n rest =>
    by_cases hn : n = 0 ∨ n > 100
    · have hrs : runSession (n :: rest) buf = (.invalidCount n, [], buf) := by
        simp [runSession, hn]
      rw [hrs]
      constructor
      · constructor
        · intro h; simp [response] at h
        · rintro ⟨n1, rest1, leftover, -, -, -, hsuc, -⟩
          exact absurd hsuc (by simp)
      · right; rfl
    · have hrs : runSession (n :: rest) buf = processRegions 0 n rest buf := by
        simp [runSession, hn]
      rw [hrs]
      rcases processRegions_outcome n 0 rest buf with ⟨leftover, hsuc⟩ | ⟨j, e, hfail⟩
      · constructor
        · constructor
          · intro _
            exact ⟨n, rest, leftover, rfl, by omega, by omega, hsuc,
              processRegions_success_length n 0 rest buf leftover hsuc⟩
          · intro _
            rw [hsuc]
            rfl
        · left
          rw [hsuc]
          rfl
      · have hresp : response (processRegions 0 n rest buf).1 = [] := by
          rw [hfail]
          rfl
        constructor
        · constructor
          · intro h
            rw [hresp] at h
            exact absurd h (by simp)
          · rintro ⟨n1, rest1, leftover, -, -, -, hsuc, -⟩
            rw [hfail] at hsuc
            exact absurd hsuc (by simp)
        · right; exact hresp

/-- C5: after reading the count byte N the session aborts before any region
header exactly when N = 0 or N > 100; for 1 ≤ N ≤ 100 it enters the region
loop bounded by N, and a fully successful run paints exactly N regions. -/
theorem c5_region_count (n : Nat) (rest buf : List Nat) :
    ((runSession (n :: rest) buf).1 = .invalidCount n ↔ (n = 0 ∨ n > 100)) ∧
    (1 ≤ n → n ≤ 100 →
      runSession (n :: rest) buf = processRegions 0 n rest buf ∧
      ∀ leftover, (processRegions 0 n rest buf).1 = .success leftover →
        (processRegions 0 n rest buf).2.1.length = n) := by
  constructor
  · constructor
    · intro h
      by_cases hn : n = 0 ∨ n > 100
      · exact hn
      · exfalso
        simp only [runSession, if_neg hn] at h
        rcases processRegions_outcome n 0 rest buf with ⟨l, hs⟩ | ⟨j, e, hf⟩
        · rw [hs] at h; exact Outcome.noConfusion h
        · rw [hf] at h; exact Outcome.noConfusion h
    · intro hn
      simp [runSession, hn]
  · intro h1 h100
    have hn : ¬(n = 0 ∨ n > 100) := by omega
    exact ⟨by simp [runSession, hn],
      fun l => processRegions_success_length n 0 rest buf l⟩

/-- Witness for C5: the theorem applied at N = 1 with the scenario region,
hypotheses discharged concretely. -/
theorem c5_witness :
    runSession (1 :: wRegion) initBuf = processRegions 0 1 wRegion initBuf ∧
    (processRegions 0 1 wRegion initBuf).2.1.length = 1 :=
  ⟨((c5_region_count 1 wRegion initBuf).2 (by decide) (by decide)).1,
    ((c5_region_count 1 wRegion initBuf).2 (by decide) (by decide)).2 [] (by rfl)⟩

/-- C6: an accepted region's payload is consumed row by row — `width * 2`
bytes per row for `height` rows after the 8 header bytes — and pixel (r, j) is
stored at buffer index `r * width + j` with its two payload bytes swapped:
the stored 16-bit value is second byte + 256 * first byte. -/
theorem c6_row_fill (input buf : List Nat) (hd : Header) (buf2 rest : List Nat)
    (hbuf : buf.length = 1024)
    (hok : processRegion input buf = Except.ok (hd, buf2, rest)) :
    rest = input.drop (8 + hd.h * (hd.w * 2)) ∧
    (∀ r j, r < hd.h → j < hd.w →
      buf2.getD (r * hd.w + j) 0 =
        input.getD (8 + (r * (hd.w * 2) + (2 * j + 1))) 0 +
          256 * input.getD (8 + (r * (hd.w * 2) + 2 * j)) 0) := by
  obtain ⟨hle, hparse, hdi, hfa⟩ := processRegion_ok hok
  simp only [dimsInvalid, MAX_CHUNK_SIZE, Bool.or_eq_false_iff,
    decide_eq_false_iff_not, not_lt] at hdi
  obtain ⟨⟨⟨hx, hy⟩, hw⟩, hh⟩ := hdi
  have hwh : (0 + hd.h) * hd.w ≤ buf.length := by
    rw [hbuf, Nat.zero_add]
    calc hd.h * hd.w ≤ 32 * hd.w := Nat.mul_le_mul_right _ hh
      _ ≤ 32 * 32 := Nat.mul_le_mul_left _ hw
      _ ≤ 1024 := by norm_num
  obtain ⟨hrest, hlow, hhigh, hcontent⟩ :=
    fillRowsAux_spec hd.w hd.h 0 (input.drop 8) buf buf2 rest hwh hfa
  constructor
  · rw [hrest, List.drop_drop]
  · intro r j hr hj
    have hc := hcontent r j hr hj
    simp only [Nat.zero_add] at hc
    rw [getD_drop, getD_drop] at hc
    exact hc

/-- Witness for C6 at the concrete region `wRegion`. -/
theorem c6_witness :
    ([] : List Nat) = wRegion.drop (8 + 1 * (2 * 2)) ∧
    (∀ r j, r < 1 → j < 2 →
      wBuf2.getD (r * 2 + j) 0 =
        wRegion.getD (8 + (r * (2 * 2) + (2 * j + 1))) 0 +
          256 * wRegion.getD (8 + (r * (2 * 2) + 2 * j)) 0) :=
  c6_row_fill wRegion initBuf ⟨0, 0, 2, 1⟩ wBuf2 [] (by decide) (by rfl)

/-- C7, counterexample to the claim as stated: on the scenario input (N=1,
header (0,0,2,1), payload bytes 00 FF 12 34) the sink is invoked exactly once
and "OK" is sent, but the 16-bit pixel row handed to the sink is not
[0xFF00, 0x3412]. -/
theorem c7_counterexample :
    (runSession wInput initBuf).2.1.length = 1 ∧
    response (runSession wInput initBuf).1 = [79, 75] ∧
    ¬ (((runSession wInput initBuf).2.1.headD ⟨0, 0, 0, 0, []⟩).buf.take 2 =
        [0xFF00, 0x3412]) := by
  decide

/-- C7 as amended: on the scenario input the sink is invoked exactly once with
geometry (0, 0, 2, 1) and 16-bit pixel row [0x00FF, 0x1234] — the received
big-endian pixel pairs stored byte-swapped in little-endian memory — and the
response "OK" is sent. -/
theorem c7_scenario :
    (runSession wInput initBuf).1 = .success [] ∧
    (runSession wInput initBuf).2.1.length = 1 ∧
    ((runSession wInput initBuf).2.1.headD ⟨0, 0, 0, 0, []⟩).x = 0 ∧
    ((runSession wInput initBuf).2.1.headD ⟨0, 0, 0, 0, []⟩).y = 0 ∧
    ((runSession wInput initBuf).2.1.headD ⟨0, 0, 0, 0, []⟩).w = 2 ∧
    ((runSession wInput initBuf).2.1.headD ⟨0, 0, 0, 0, []⟩).h = 1 ∧
    ((runSession wInput initBuf).2.1.headD ⟨0, 0, 0, 0, []⟩).buf.take 2 =
      [0x00FF, 0x1234] ∧
    response (runSession wInput initBuf).1 = [79, 75] := by
  decide

/-- C8, counterexample to the claim as stated: at `millis() = 2^32 - 1` the
deadline `millis() + 1000` wraps to 999, so a call for one byte fails with no
bytes read even though a byte is available at the very first poll — zero
milliseconds after the call, well inside the 1000 ms window — while the same
arrival pattern at `millis() = 0` (byte available at the call instant, same
elapsed time) succeeds.  Success therefore does not depend only on whether
`length` bytes are obtained before the 1000 ms deadline elapses. -/
theorem c8_counterexample :
    (4294967295 + 1000) % UINT32_MOD = 999 ∧
    readExactBytes 4294967295 [(4294967295, some 42)] 1 = (false, []) ∧
    readExactBytes 0 [(0, some 42)] 1 = (true, [42]) := by
  decide

/-- C8 as amended: one `readExactBytes` call succeeds exactly when `length`
bytes are available at polls whose raw 32-bit `millis()` reading is strictly
below the wrapped deadline `(millis-at-call + 1000) mod 2^32`; the bytes
returned are the first `length` such bytes; and every call starts from a fresh
zero count and a fresh wrapped deadline (it is `readLoop` from an empty
accumulator), so a failed call is never resumed.  When `millis() + 1000`
overflows, the wrapped deadline is below the current reading and the call
fails immediately regardless of arriving bytes. -/
theorem c8_read_exact (now : Nat) (steps : List (Nat × Option Nat)) (len : Nat) :
    (readExactBytes now steps len).2 =
      (timelyAvail ((now + 1000) % UINT32_MOD) steps).take len ∧
    ((readExactBytes now steps len).1 = true ↔
      len ≤ (timelyAvail ((now + 1000) % UINT32_MOD) steps).length) ∧
    readExactBytes now steps len = readLoop ((now + 1000) % UINT32_MOD) len steps [] := by
  simp only [readExactBytes]
  have hb := readLoop_bytes steps [] ((now + 1000) % UINT32_MOD) len (by simp)
  simp only [List.nil_append, List.length_nil, Nat.sub_zero] at hb
  have hf := readLoop_flag steps [] ((now + 1000) % UINT32_MOD) len
  refine ⟨hb, ?_, trivial⟩
  rw [hf, hb, List.length_take, beq_iff_eq]
  omega

/-- C9: each successful region produces exactly one paint call, carrying that
region's validated header and the buffer just filled for it, in region order;
a fully successful batch of N regions yields exactly N paint calls. -/
theorem c9_paint_per_region :
    (∀ i k input buf leftover,
      (processRegions i k input buf).1 = .success leftover →
      (processRegions i k input buf).2.1.length = k) ∧
    (∀ i k input buf hd buf2 rest,
      processRegion input buf = Except.ok (hd, buf2, rest) →
      (processRegions i (k + 1) input buf).2.1 =
        (⟨hd.x, hd.y, hd.w, hd.h, buf2⟩ : Paint) ::
          (processRegions (i + 1) k rest buf2).2.1) := by
  constructor
  · intro i k input buf leftover h
    exact processRegions_success_length k i input buf leftover h
  · intro i k input buf hd buf2 rest h
    simp [processRegions, h]

/-- Witness for C9 at the concrete scenario region. -/
theorem c9_witness :
    (processRegions 0 1 wRegion initBuf).2.1.length = 1 ∧
    (processRegions 0 1 wRegion initBuf).2.1 =
      (⟨0, 0, 2, 1, wBuf2⟩ : Paint) :: (processRegions 1 0 [] wBuf2).2.1 :=
  ⟨c9_paint_per_region.1 0 1 wRegion initBuf [] (by rfl),
    c9_paint_per_region.2 0 0 wRegion initBuf ⟨0, 0, 2, 1⟩ wBuf2 [] (by rfl)⟩

/-- C10: a header with width = 0 or height = 0 and in-bounds position passes
validation, consumes zero payload bytes, leaves the buffer untouched, still
triggers exactly one paint call with the degenerate geometry, and the session
continues with the next region. -/
theorem c10_degenerate_region (meta rest buf : List Nat) (hlen : meta.length = 8)
    (hzero : (parseHeader meta).w = 0 ∨ (parseHeader meta).h = 0)
    (hx : (parseHeader meta).x + (parseHeader meta).w ≤ 240)
    (hy : (parseHeader meta).y + (parseHeader meta).h ≤ 240)
    (hw : (parseHeader meta).w ≤ 32) (hh : (parseHeader meta).h ≤ 32) :
    dimsInvalid (parseHeader meta) = false ∧
    processRegion (meta ++ rest) buf = .ok (parseHeader meta, buf, rest) ∧
    (∀ i k, (processRegions i (k + 1) (meta ++ rest) buf).2.1 =
      (⟨(parseHeader meta).x, (parseHeader meta).y, (parseHeader meta).w,
        (parseHeader meta).h, buf⟩ : Paint) ::
        (processRegions (i + 1) k rest buf).2.1) := by
  have hdi : dimsInvalid (parseHeader meta) = false := by
    simp only [dimsInvalid, MAX_CHUNK_SIZE, Bool.or_eq_false_iff,
      decide_eq_false_iff_not, not_lt]
    exact ⟨⟨⟨hx, hy⟩, hw⟩, hh⟩
  have hread : readN 8 (meta ++ rest) = some (meta, rest) := by
    rw [readN_of_le (by simp [hlen]), List.take_left' hlen, List.drop_left' hlen]
  have hfa : fillRowsAux (parseHeader meta).w 0 (parseHeader meta).h rest buf =
      some (buf, rest) := by
    rcases hzero with h0 | h0
    · rw [h0]; exact fillRowsAux_zero_w (parseHeader meta).h 0 rest buf
    · rw [h0]; rfl
  have hpr : processRegion (meta ++ rest) buf = .ok (parseHeader meta, buf, rest) := by
    simp [processRegion, hread, hdi, hfa]
  exact ⟨hdi, hpr, fun i k => by simp [processRegions, hpr]⟩

/-- Witness for C10 with the zero-width header `wMeta0` followed by two
trailing bytes. -/
theorem c10_witness :
    dimsInvalid (parseHeader wMeta0) = false ∧
    processRegion (wMeta0 ++ [7, 7]) initBuf = .ok (parseHeader wMeta0, initBuf, [7, 7]) ∧
    (∀ i k, (processRegions i (k + 1) (wMeta0 ++ [7, 7]) initBuf).2.1 =
      (⟨(parseHeader wMeta0).x, (parseHeader wMeta0).y, (parseHeader wMeta0).w,
        (parseHeader wMeta0).h, initBuf⟩ : Paint) ::
        (processRegions (i + 1) k [7, 7] initBuf).2.1) :=
  c10_degenerate_region wMeta0 [7, 7] initBuf (by decide) (by decide) (by decide)
    (by decide) (by decide) (by decide)

end MiniDisplay
